import Mathlib

/-!
Shallow embedding of the career-pathfinder recommendation core
(`src/app/page.tsx`): the data model (`Job`, `Preferences`), the utilities
(`daysSince`, `clamp`, `extractTags`), the scoring function (`scoreJob`),
the ranker (`reRank`), the feedback learner (`learnFromFeedback`) and the
source aggregation (`fetchJobs`).

Modelling conventions:
* JS numbers are modelled as `ℚ` (the weights and salaries are small
  decimals; overflow and float rounding play no role in the claims).
* JS strings are Lean `String`s; `String.prototype.includes` becomes a
  substring test on the character lists; `toLowerCase` is per-character folding.
* The ambient clock (`Date.now()`, read by `daysSince`) becomes an explicit
  `now : Int` parameter (epoch milliseconds); an ISO date string becomes the
  epoch-millisecond instant it denotes, `Option Int`.
* Optional fields become `Option`; JS truthiness of an optional number
  (`job.salaryMax || job.salaryMin || 0`) is modelled exactly (`0` is falsy),
  likewise the truthiness of an optional string (`""` is falsy).
-/

namespace Pathfinder

/-- JS `needle`-in-`hay` substring test (`hay.includes(needle)`). -/
def strIncludes (hay needle : String) : Bool :=
  decide (needle.toList <:+: hay.toList)

/-- JS `toLowerCase()` (the repository only ever lower-cases ASCII
keyword/tag material, for which per-character folding is exact). -/
def lowerStr (s : String) : String := ⟨s.data.map Char.toLower⟩

/-- The `weights` record of a preference profile.  The spec fixes its key
set to these nine factor names (§4.2). -/
structure Weights where
  keywordMatch : ℚ
  negativeKeyword : ℚ
  locationMatch : ℚ
  salary : ℚ
  workType : ℚ
  industry : ℚ
  seniority : ℚ
  remote : ℚ
  recency : ℚ
  deriving Repr, DecidableEq

/-- The `type Job` record from the source.  `postedAt` is the instant the ISO string
denotes, in epoch milliseconds. -/
structure Job where
  id : String
  title : String
  company : String
  location : String
  url : String
  postedAt : Option Int := none
  description : Option String := none
  source : String
  tags : Option (List String) := none
  salaryMin : Option ℚ := none
  salaryMax : Option ℚ := none
  workType : Option String := none
  seniority : Option String := none
  remote : Option Bool := none
  hybrid : Option Bool := none
  deriving Repr, DecidableEq

/-- The `type Preferences` record from the source. -/
structure Preferences where
  keywords : List String
  blockedKeywords : List String
  preferredLocations : List String
  excludedLocations : List String
  minSalary : Option ℚ := none
  workTypes : List String
  industries : List String
  seniority : List String
  remoteOnly : Bool
  academia : Bool
  consulting : Bool
  publicSector : Bool
  privateSector : Bool
  weights : Weights
  deriving Repr, DecidableEq

/-- The `defaultPreferences` value from the source (salary numbers in AUD). -/
def defaultPreferences : Preferences where
  keywords := ["organisational psychology", "behavioural science", "OD",
    "leadership development", "culture", "statistics", "program evaluation",
    "research methods", "data analysis"]
  blockedKeywords := ["corruption prevention"]
  preferredLocations := ["Sydney", "NSW", "Hybrid", "Remote"]
  excludedLocations := []
  minSalary := some 140000
  workTypes := ["Full-time", "Fixed-term", "Contract"]
  industries := ["Consulting", "Tech", "Healthcare", "Higher Education",
    "Financial Services", "Public Sector"]
  seniority := ["Senior", "Lead", "Manager", "Director"]
  remoteOnly := false
  academia := true
  consulting := true
  publicSector := true
  privateSector := true
  weights :=
    { keywordMatch := 1.4, negativeKeyword := -2.2, locationMatch := 0.9,
      salary := 1.2, workType := 0.6, industry := 0.7, seniority := 0.8,
      remote := 0.5, recency := 0.6 }

/-- The `daysSince(dateIso?)` utility: `999` when the date is unknown, otherwise
`Math.floor((Date.now() - d.getTime()) / (1000*60*60*24))`.  The ambient
`Date.now()` is the explicit `now` argument. -/
def daysSince (now : Int) (postedAt : Option Int) : Int :=
  match postedAt with
  | none => 999
  | some t => Int.fdiv (now - t) 86400000

/-- The utility `clamp(n, min, max) = Math.max(min, Math.min(max, n))`. -/
def clamp (n lo hi : ℚ) : ℚ := max lo (min hi n)

/-- The fixed vocabulary scanned by `extractTags`. -/
def tagPicks : List String :=
  ["organisational psychology", "behavioural", "leadership", "culture", "od",
   "learning", "l&d", "people analytics", "data", "statistics", "evaluation",
   "program", "policy", "consulting", "experimental", "research", "phd",
   "doctorate", "university", "health", "clinical", "government", "ethics",
   "risk", "psychometrics", "survey"]

/-- The extractor `extractTags(job)`: vocabulary terms occurring in the lower-cased
concatenation of title and description, in vocabulary order, capped at 12. -/
def extractTags (job : Job) : List String :=
  let blob := lowerStr (job.title ++ " " ++ job.description.getD "")
  (tagPicks.filter (fun p => strIncludes blob p)).take 12

/-- The `job.title.toLowerCase()` value used throughout `scoreJob`. -/
def jobTitleLower (job : Job) : String := lowerStr job.title

/-- The `(job.description || "").toLowerCase()` value used throughout `scoreJob`. -/
def jobDescLower (job : Job) : String := lowerStr (job.description.getD "")

/-- Keyword factor: number of allow-list keywords occurring (case-insensitive
substring) in title or description, times the `keywordMatch` weight. -/
def kwScore (job : Job) (prefs : Preferences) : ℚ :=
  (prefs.keywords.countP (fun kw =>
      strIncludes (jobTitleLower job) (lowerStr kw) ||
      strIncludes (jobDescLower job) (lowerStr kw)) : ℚ) *
    prefs.weights.keywordMatch

/-- Negative-keyword factor: block-list hits times the (conventionally
negative) `negativeKeyword` weight. -/
def negScore (job : Job) (prefs : Preferences) : ℚ :=
  (prefs.blockedKeywords.countP (fun kw =>
      strIncludes (jobTitleLower job) (lowerStr kw) ||
      strIncludes (jobDescLower job) (lowerStr kw)) : ℚ) *
    prefs.weights.negativeKeyword

/-- Location factor: binary, any preferred location substring in the job
location. -/
def locationScore (job : Job) (prefs : Preferences) : ℚ :=
  if prefs.preferredLocations.any (fun l =>
      strIncludes (lowerStr job.location) (lowerStr l))
  then prefs.weights.locationMatch else 0

/-- JS `job.salaryMax || job.salaryMin || 0` — the `||` on numbers, where `0`
(and an absent field) is falsy. -/
def offeredSalary (job : Job) : ℚ :=
  if job.salaryMax.getD 0 ≠ 0 then job.salaryMax.getD 0
  else if job.salaryMin.getD 0 ≠ 0 then job.salaryMin.getD 0
  else 0

/-- Salary factor: binary, offered compensation at least the profile's
minimum (`prefs.minSalary || 0`). -/
def salaryScore (job : Job) (prefs : Preferences) : ℚ :=
  if prefs.minSalary.getD 0 ≤ offeredSalary job then prefs.weights.salary
  else 0

/-- Work-type factor: `job.workType && prefs.workTypes.includes(job.workType)`
(an absent or empty label is falsy). -/
def workTypeScore (job : Job) (prefs : Preferences) : ℚ :=
  if (match job.workType with
      | none => false
      | some wt => wt ≠ "" && prefs.workTypes.contains wt)
  then prefs.weights.workType else 0

/-- Industry factor: any posting tag contains any profile industry term. -/
def industryScore (job : Job) (prefs : Preferences) : ℚ :=
  if (job.tags.getD []).any (fun t =>
      prefs.industries.any (fun i => strIncludes (lowerStr t) (lowerStr i)))
  then prefs.weights.industry else 0

/-- Seniority factor: membership of the posting's seniority label. -/
def seniorityScore (job : Job) (prefs : Preferences) : ℚ :=
  if (match job.seniority with
      | none => false
      | some s => s ≠ "" && prefs.seniority.contains s)
  then prefs.weights.seniority else 0

/-- Remote factor: `job.remote || job.hybrid`. -/
def remoteScore (job : Job) (prefs : Preferences) : ℚ :=
  if job.remote.getD false || job.hybrid.getD false then prefs.weights.remote
  else 0

/-- Recency factor: `d < 21 ? w.recency * ((21 - d) / 21) : 0` with
`d = daysSince(job.postedAt)`. -/
def recencyScore (now : Int) (job : Job) (prefs : Preferences) : ℚ :=
  let d := daysSince now job.postedAt
  if d < 21 then prefs.weights.recency * (((21 - d : Int) : ℚ) / 21) else 0

/-- The scoring function `scoreJob(job, prefs)`: the sum of the nine factor contributions.  The
clock read (`Date.now()` inside `daysSince`) is the explicit `now`. -/
def scoreJob (now : Int) (job : Job) (prefs : Preferences) : ℚ :=
  kwScore job prefs + negScore job prefs + locationScore job prefs +
    salaryScore job prefs + workTypeScore job prefs +
    industryScore job prefs + seniorityScore job prefs +
    remoteScore job prefs + recencyScore now job prefs

/-! ## Ranker (`reRank`) -/

/-- One `{ job, score }` pair built by `reRank`. -/
structure Scored where
  job : Job
  score : ℚ
  deriving Repr, DecidableEq

/-- The enrichment step of `reRank`:
`{ ...j, tags: j.tags?.length ? j.tags : extractTags(j) }`. -/
def enrichJob (j : Job) : Job :=
  if (j.tags.getD []).isEmpty then { j with tags := some (extractTags j) }
  else j

def enrichJobs (jobs : List Job) : List Job := jobs.map enrichJob

/-- Stable descending insertion: the element moves past exactly those earlier
elements whose score is strictly below its own, which is the observable
behaviour of the (stable) JS `sort((a, b) => b.score - a.score)`. -/
def insertDesc (x : Scored) : List Scored → List Scored
  | [] => [x]
  | y :: ys => if y.score ≤ x.score then x :: y :: ys else y :: insertDesc x ys

/-- Stable sort by descending score. -/
def sortDesc (l : List Scored) : List Scored := l.foldr insertDesc []

/-- The ranker `reRank(jobs, prefs)`: enrich tags, score each posting, sort by
descending score (stably), and strip the scores again. -/
def reRank (now : Int) (jobs : List Job) (prefs : Preferences) : List Job :=
  ((enrichJobs jobs).map (fun job => Scored.mk job (scoreJob now job prefs))
    |> sortDesc).map Scored.job

/-! ## Feedback learner (`learnFromFeedback`) -/

/-- The tag collection the learner draws from:
`selectedTags.length ? selectedTags : job.tags || []`. -/
def learnSource (job : Job) (selectedTags : List String) : List String :=
  if selectedTags.isEmpty then job.tags.getD [] else selectedTags

/-- One step of the tag loop: append the lower-cased tag to the list unless
already present. -/
def addTagOnce (ks : List String) (t : String) : List String :=
  if ks.contains (lowerStr t) then ks else ks ++ [lowerStr t]

/-- The learner `learnFromFeedback(prefs, job, liked, notes, selectedTags)`: the pure
value-level behaviour of the learner (the source builds `newPrefs` as a copy
and returns it; the heap-level non-mutation claim is modelled separately
below). -/
def learnFromFeedback (prefs : Preferences) (job : Job) (liked : Bool)
    (notes : String) (selectedTags : List String) : Preferences :=
  let delta : ℚ := if liked then 0.15 else -0.12
  let w0 := prefs.weights
  let w1 := if liked
    then { w0 with keywordMatch := clamp (w0.keywordMatch + 0.05) 0.6 2.2 }
    else { w0 with negativeKeyword := clamp (w0.negativeKeyword - 0.05) (-3) (-0.6) }
  let keywords1 := if liked
    then (learnSource job selectedTags).foldl addTagOnce prefs.keywords
    else prefs.keywords
  let blocked1 := if liked
    then prefs.blockedKeywords
    else (learnSource job selectedTags).foldl addTagOnce prefs.blockedKeywords
  let n := lowerStr notes
  let w2 := if strIncludes n "salary" || strIncludes n "pay"
    then { w1 with salary := clamp (w1.salary + delta) 0.2 2.4 } else w1
  let w3 := if strIncludes n "remote" || strIncludes n "hybrid"
    then { w2 with remote := clamp (w2.remote + delta) 0 1.4 } else w2
  let w4 := if strIncludes n "leadership" || strIncludes n "manager" ||
      strIncludes n "director"
    then { w3 with seniority := clamp (w3.seniority + delta) 0.2 2 } else w3
  let consulting1 := if strIncludes n "consult" then liked else prefs.consulting
  let academia1 := if strIncludes n "university" || strIncludes n "academic"
    then liked else prefs.academia
  { prefs with
      weights := w4
      keywords := keywords1
      blockedKeywords := blocked1
      consulting := consulting1
      academia := academia1 }

/-! ## Source aggregation (`fetchJobs`) -/

/-- A source adapter as the aggregator sees it: each one independently
settles to a posting list (fulfilled) or to a failure (rejected); the
settled outcome of `fetcher(query, location)` is an `Except`. -/
structure Adapter where
  name : String
  enabled : Bool
  fetcher : String → String → Except String (List Job)

/-- The `(source, identifier)` dedup key `` `${j.source}-${j.id}` ``. -/
def jobKey (j : Job) : String := j.source ++ "-" ++ j.id

/-- One `map.set(key, j)` on a JS `Map` represented as an insertion-ordered
association list: a present key keeps its position and takes the new value;
an absent key is appended. -/
def mapSet (m : List Job) (j : Job) : List Job :=
  if m.any (fun x => jobKey x = jobKey j)
  then m.map (fun x => if jobKey x = jobKey j then j else x)
  else m ++ [j]

/-- The dedup loop of `fetchJobs` followed by `Array.from(map.values())`. -/
def dedupByKey (jobs : List Job) : List Job := jobs.foldl mapSet []

/-- One settled adapter in the `batches.forEach` loop: a fulfilled batch is
pushed onto the accumulated jobs, a rejected one is only logged. -/
def settleStep (query location : String) (acc : List Job) (a : Adapter) :
    List Job :=
  match a.fetcher query location with
  | .ok batch => acc ++ batch
  | .error _ => acc

/-- The aggregator `fetchJobs(query, location, enabledOnly)`: filter the enabled adapters,
let all of them settle, keep the fulfilled batches (rejected ones only get
logged), concatenate, and deduplicate by `(source, identifier)`. -/
def fetchJobs (adapters : List Adapter) (query location : String)
    (enabledOnly : Bool := true) : List Job :=
  let selected := adapters.filter (fun a => !enabledOnly || a.enabled)
  dedupByKey (selected.foldl (settleStep query location) [])

/-! ## Heap-level model of `learnFromFeedback` (for the non-mutation claim)

The pure definition above cannot even express in-place mutation, so the
frame claim is settled against an explicit heap: the keyword lists and the
weight map live in heap cells addressed by `Nat` references, exactly the
objects the JS engine allocates, and every JS statement of the function
becomes an allocation, a read, or a write on that heap.  `{...prefs}` is a
shallow copy (the new object *shares* the array references), while
`weights: { ...prefs.weights }` allocates a fresh weights cell; the
in-place assignments `newPrefs.weights.x = …` are writes to that fresh
cell, and `newPrefs.keywords = [...newPrefs.keywords, t]` allocates a fresh
array cell and rebinds the new object's field. -/

/-- A heap cell: a string array or a weights record. -/
inductive HVal where
  | arr (xs : List String)
  | wmap (w : Weights)
  deriving Repr, DecidableEq

abbrev Heap := List HVal

/-- Read a string-array cell (a dangling or ill-typed read yields `[]`;
the theorems only use well-typed heaps). -/
def readArr (h : Heap) (r : Nat) : List String :=
  match h.getD r (.arr []) with
  | .arr xs => xs
  | .wmap _ => []

/-- Read a weights cell. -/
def readWmap (h : Heap) (r : Nat) : Weights :=
  match h.getD r (.arr []) with
  | .wmap w => w
  | .arr _ =>
    { keywordMatch := 0, negativeKeyword := 0, locationMatch := 0,
      salary := 0, workType := 0, industry := 0, seniority := 0,
      remote := 0, recency := 0 }

/-- Allocate a fresh cell at the end of the heap. -/
def heapAlloc (h : Heap) (v : HVal) : Heap × Nat := (h ++ [v], h.length)

/-- The preference object with its array-valued and map-valued fields held
by reference, as the JS engine holds them.  Scalar fields that the learner
touches are inlined. -/
structure PrefsObj where
  keywordsRef : Nat
  blockedKeywordsRef : Nat
  weightsRef : Nat
  consulting : Bool
  academia : Bool
  deriving Repr, DecidableEq

/-- One iteration of the tag loop at heap level: the conditional
re-binding `newPrefs.keywords = [...newPrefs.keywords, tLower]` (or the
block-list analogue) allocates a fresh array cell and repoints the new
object's field; the old cell is never written. -/
def tagStepH (liked : Bool) (acc : Heap × PrefsObj) (t : String) :
    Heap × PrefsObj :=
  let (hh, pp) := acc
  let tLower := lowerStr t
  if liked then
    if (readArr hh pp.keywordsRef).contains tLower then acc
    else
      let (hh', r) := heapAlloc hh (.arr (readArr hh pp.keywordsRef ++ [tLower]))
      (hh', { pp with keywordsRef := r })
  else
    if (readArr hh pp.blockedKeywordsRef).contains tLower then acc
    else
      let (hh', r) := heapAlloc hh (.arr (readArr hh pp.blockedKeywordsRef ++ [tLower]))
      (hh', { pp with blockedKeywordsRef := r })

/-- A guarded in-place field update `if (cond) obj.weights.x = v;`: write
the updated weights record back into cell `j` when the guard holds. -/
def condWrite (b : Bool) (hh : Heap) (j : Nat) (f : Weights → Weights) : Heap :=
  if b then hh.set j (.wmap (f (readWmap hh j))) else hh

/-- Heap-level `learnFromFeedback`: returns the final heap and the new
profile object.  Statement by statement from the source. -/
def learnFromFeedbackH (h : Heap) (prefs : PrefsObj) (job : Job)
    (liked : Bool) (notes : String) (selectedTags : List String) :
    Heap × PrefsObj :=
  let delta : ℚ := if liked then 0.15 else -0.12
  -- const newPrefs = { ...prefs, weights: { ...prefs.weights } };
  let (h1, wRef) := heapAlloc h (.wmap (readWmap h prefs.weightsRef))
  let np : PrefsObj := { prefs with weightsRef := wRef }
  -- if (liked) newPrefs.weights.keywordMatch = clamp(... + 0.05, 0.6, 2.2);
  let h2 := condWrite liked h1 wRef (fun w =>
    { w with keywordMatch := clamp (w.keywordMatch + 0.05) 0.6 2.2 })
  -- if (!liked) newPrefs.weights.negativeKeyword = clamp(... - 0.05, -3, -0.6);
  let h3 := condWrite (!liked) h2 wRef (fun w =>
    { w with negativeKeyword := clamp (w.negativeKeyword - 0.05) (-3) (-0.6) })
  let (h4, np1) := (learnSource job selectedTags).foldl (tagStepH liked) (h3, np)
  -- notes-driven nudges: in-place writes to the new weights cell
  let n := lowerStr notes
  let h5 := condWrite (strIncludes n "salary" || strIncludes n "pay") h4 wRef
    (fun w => { w with salary := clamp (w.salary + delta) 0.2 2.4 })
  let h6 := condWrite (strIncludes n "remote" || strIncludes n "hybrid") h5 wRef
    (fun w => { w with remote := clamp (w.remote + delta) 0 1.4 })
  let h7 := condWrite (strIncludes n "leadership" || strIncludes n "manager" ||
      strIncludes n "director") h6 wRef
    (fun w => { w with seniority := clamp (w.seniority + delta) 0.2 2 })
  let np2 := if strIncludes n "consult" then { np1 with consulting := liked }
    else np1
  let np3 := if strIncludes n "university" || strIncludes n "academic" then
      { np2 with academia := liked }
    else np2
  (h7, np3)

/-! ## Helper lemmas -/

/-- The `clamp` result really lands in `[lo, hi]` whenever the interval is nonempty. -/
theorem clamp_mem {lo hi : ℚ} (x : ℚ) (h : lo ≤ hi) :
    lo ≤ clamp x lo hi ∧ clamp x lo hi ≤ hi := by
  unfold clamp
  constructor
  · exact le_max_left _ _
  · exact max_le h (min_le_left _ _)

/-- Field characterization of the learner's output weights: each factor is
nudged by exactly its own trigger and the others pass through. -/
theorem lff_weights_eq (prefs : Preferences) (job : Job) (liked : Bool)
    (notes : String) (selectedTags : List String) :
    (learnFromFeedback prefs job liked notes selectedTags).weights =
    { keywordMatch := if liked
        then clamp (prefs.weights.keywordMatch + 0.05) 0.6 2.2
        else prefs.weights.keywordMatch
      negativeKeyword := if liked
        then prefs.weights.negativeKeyword
        else clamp (prefs.weights.negativeKeyword - 0.05) (-3) (-0.6)
      locationMatch := prefs.weights.locationMatch
      salary := if strIncludes (lowerStr notes) "salary" || strIncludes (lowerStr notes) "pay"
        then clamp (prefs.weights.salary + (if liked then 0.15 else -0.12)) 0.2 2.4
        else prefs.weights.salary
      workType := prefs.weights.workType
      industry := prefs.weights.industry
      seniority := if strIncludes (lowerStr notes) "leadership" ||
          strIncludes (lowerStr notes) "manager" || strIncludes (lowerStr notes) "director"
        then clamp (prefs.weights.seniority + (if liked then 0.15 else -0.12)) 0.2 2
        else prefs.weights.seniority
      remote := if strIncludes (lowerStr notes) "remote" || strIncludes (lowerStr notes) "hybrid"
        then clamp (prefs.weights.remote + (if liked then 0.15 else -0.12)) 0 1.4
        else prefs.weights.remote
      recency := prefs.weights.recency } := by
  cases liked <;> simp only [learnFromFeedback] <;> split_ifs <;> rfl

/-- Field characterization of the learner's output keyword lists and flags. -/
theorem lff_fields_eq (prefs : Preferences) (job : Job) (liked : Bool)
    (notes : String) (selectedTags : List String) :
    (learnFromFeedback prefs job liked notes selectedTags).keywords =
      (if liked
        then (learnSource job selectedTags).foldl addTagOnce prefs.keywords
        else prefs.keywords) ∧
    (learnFromFeedback prefs job liked notes selectedTags).blockedKeywords =
      (if liked
        then prefs.blockedKeywords
        else (learnSource job selectedTags).foldl addTagOnce prefs.blockedKeywords) ∧
    (learnFromFeedback prefs job liked notes selectedTags).consulting =
      (if strIncludes (lowerStr notes) "consult" then liked else prefs.consulting) ∧
    (learnFromFeedback prefs job liked notes selectedTags).academia =
      (if strIncludes (lowerStr notes) "university" || strIncludes (lowerStr notes) "academic"
        then liked else prefs.academia) ∧
    (learnFromFeedback prefs job liked notes selectedTags).preferredLocations =
      prefs.preferredLocations ∧
    (learnFromFeedback prefs job liked notes selectedTags).excludedLocations =
      prefs.excludedLocations ∧
    (learnFromFeedback prefs job liked notes selectedTags).minSalary = prefs.minSalary ∧
    (learnFromFeedback prefs job liked notes selectedTags).workTypes = prefs.workTypes ∧
    (learnFromFeedback prefs job liked notes selectedTags).industries = prefs.industries ∧
    (learnFromFeedback prefs job liked notes selectedTags).seniority = prefs.seniority ∧
    (learnFromFeedback prefs job liked notes selectedTags).remoteOnly = prefs.remoteOnly ∧
    (learnFromFeedback prefs job liked notes selectedTags).publicSector = prefs.publicSector ∧
    (learnFromFeedback prefs job liked notes selectedTags).privateSector = prefs.privateSector := by
  cases liked <;> simp [learnFromFeedback]

/-! ## C1 — determinism of the scoring function -/

/-- A concrete posting dated at instant `0`. -/
def cexJob : Job :=
  { id := "1", title := "x", company := "c", location := "l", url := "u",
    source := "S", postedAt := some 0 }

/-- C1 counterexample: the Scoring Function reads the ambient clock
(`Date.now()` inside `daysSince`), so two calls with the same posting and
the same profile — the first on the posting's day, the second 30 days
later — return different values.  The claim that it "reads no ambient
state" is therefore false. -/
theorem scoreJob_reads_clock_cex :
    scoreJob 0 cexJob defaultPreferences ≠
      scoreJob (30 * 86400000) cexJob defaultPreferences := by
  have hd0 : daysSince 0 cexJob.postedAt = 0 := by decide
  have hd30 : daysSince (30 * 86400000) cexJob.postedAt = 30 := by decide
  have h0 : recencyScore 0 cexJob defaultPreferences = 3/5 := by
    simp only [recencyScore, hd0]
    norm_num [defaultPreferences]
  have h30 : recencyScore (30 * 86400000) cexJob defaultPreferences = 0 := by
    simp only [recencyScore, hd30]
    norm_num
  intro h
  unfold scoreJob at h
  rw [h0, h30] at h
  exact absurd (add_left_cancel h) (by norm_num)

/-- C1 (amended): the Scoring Function is deterministic once the clock
reading is fixed alongside the posting and profile; it depends on the
ambient clock only through the posting's age in days (`daysSince`). -/
theorem scoreJob_deterministic_fixed_clock (now now' : Int) (job : Job)
    (prefs : Preferences)
    (h : daysSince now job.postedAt = daysSince now' job.postedAt) :
    scoreJob now job prefs = scoreJob now' job prefs := by
  unfold scoreJob recencyScore
  rw [h]

theorem scoreJob_deterministic_fixed_clock_witness :
    daysSince 5 cexJob.postedAt = daysSince 7 cexJob.postedAt ∧
      scoreJob 5 cexJob defaultPreferences = scoreJob 7 cexJob defaultPreferences :=
  ⟨by decide, scoreJob_deterministic_fixed_clock 5 7 cexJob defaultPreferences (by decide)⟩

/-! ## C9 — the recency factor -/

/-- C9: the recency factor contributes `weight × (21 − age)/21` for age
under 21 days: a posting dated exactly today contributes the full weight, a
posting dated 21 or more days ago contributes `0`, an undated posting
(age sentinel `999`) contributes `0`, and in general a posting dated `a`
days ago with `0 ≤ a < 21` contributes `weight × (21 − a)/21`. -/
theorem recency_decay (now : Int) (job : Job) (prefs : Preferences) (t a : Int) :
    (job.postedAt = some now → recencyScore now job prefs = prefs.weights.recency) ∧
    (job.postedAt = some t → 21 * 86400000 ≤ now - t →
      recencyScore now job prefs = 0) ∧
    (job.postedAt = none → recencyScore now job prefs = 0) ∧
    (job.postedAt = some (now - a * 86400000) → 0 ≤ a → a < 21 →
      recencyScore now job prefs = prefs.weights.recency * ((21 - (a : ℚ)) / 21)) := by
  refine ⟨fun h => ?_, fun h hage => ?_, fun h => ?_, fun h h0 h21 => ?_⟩
  · simp only [recencyScore, daysSince, h, sub_self]
    norm_num [Int.fdiv_eq_ediv]
  · simp only [recencyScore, daysSince, h]
    have hdiv : 21 ≤ (now - t).fdiv 86400000 := by
      rw [Int.fdiv_eq_ediv _ (by norm_num)]
      omega
    rw [if_neg (by omega)]
  · simp [recencyScore, daysSince, h]
  · simp only [recencyScore, daysSince, h]
    have hd : (now - (now - a * 86400000)).fdiv 86400000 = a := by
      have : now - (now - a * 86400000) = a * 86400000 := by ring
      rw [this, Int.mul_fdiv_cancel _ (by norm_num)]
    rw [hd, if_pos h21]
    push_cast [Int.cast_sub]
    norm_num

theorem recency_decay_witness :
    (cexJob.postedAt = some 0 →
      recencyScore 0 cexJob defaultPreferences = defaultPreferences.weights.recency) ∧
      recencyScore 0 cexJob defaultPreferences = defaultPreferences.weights.recency := by
  refine ⟨fun _ => ?_, ?_⟩ <;>
    exact (recency_decay 0 cexJob defaultPreferences 0 0).1 (by rfl)

/-! ## C5 — exactly one keyword-weight adjustment per event -/

/-- C5: per feedback event exactly one of the two keyword-weight
adjustments fires: on a like, `keywordMatch` moves to
`clamp(keywordMatch + 0.05, 0.6, 2.2)` and `negativeKeyword` is untouched;
on a dislike, `negativeKeyword` moves to
`clamp(negativeKeyword − 0.05, −3, −0.6)` and `keywordMatch` is untouched
(the notes-driven nudges never reach either field). -/
theorem kw_adjustment_exclusive (prefs : Preferences) (job : Job)
    (liked : Bool) (notes : String) (selectedTags : List String) :
    ((learnFromFeedback prefs job liked notes selectedTags).weights.keywordMatch =
      if liked then clamp (prefs.weights.keywordMatch + 0.05) 0.6 2.2
      else prefs.weights.keywordMatch) ∧
    ((learnFromFeedback prefs job liked notes selectedTags).weights.negativeKeyword =
      if liked then prefs.weights.negativeKeyword
      else clamp (prefs.weights.negativeKeyword - 0.05) (-3) (-0.6)) := by
  rw [lff_weights_eq]
  exact ⟨rfl, rfl⟩

/-! ## C10 — frame of a tagless, noteless event -/

/-- C10: with empty notes, no selected tags, and a tagless posting, the
learner changes at most one field: the `keywordMatch` weight on a like or
the `negativeKeyword` weight on a dislike; every other weight, every
keyword list, and every flag passes through unchanged. -/
theorem lff_frame_minimal (prefs : Preferences) (job : Job) (liked : Bool)
    (h : job.tags.getD [] = []) :
    (learnFromFeedback prefs job liked "" []).keywords = prefs.keywords ∧
    (learnFromFeedback prefs job liked "" []).blockedKeywords = prefs.blockedKeywords ∧
    (learnFromFeedback prefs job liked "" []).preferredLocations = prefs.preferredLocations ∧
    (learnFromFeedback prefs job liked "" []).excludedLocations = prefs.excludedLocations ∧
    (learnFromFeedback prefs job liked "" []).minSalary = prefs.minSalary ∧
    (learnFromFeedback prefs job liked "" []).workTypes = prefs.workTypes ∧
    (learnFromFeedback prefs job liked "" []).industries = prefs.industries ∧
    (learnFromFeedback prefs job liked "" []).seniority = prefs.seniority ∧
    (learnFromFeedback prefs job liked "" []).remoteOnly = prefs.remoteOnly ∧
    (learnFromFeedback prefs job liked "" []).academia = prefs.academia ∧
    (learnFromFeedback prefs job liked "" []).consulting = prefs.consulting ∧
    (learnFromFeedback prefs job liked "" []).publicSector = prefs.publicSector ∧
    (learnFromFeedback prefs job liked "" []).privateSector = prefs.privateSector ∧
    (learnFromFeedback prefs job liked "" []).weights.locationMatch = prefs.weights.locationMatch ∧
    (learnFromFeedback prefs job liked "" []).weights.salary = prefs.weights.salary ∧
    (learnFromFeedback prefs job liked "" []).weights.workType = prefs.weights.workType ∧
    (learnFromFeedback prefs job liked "" []).weights.industry = prefs.weights.industry ∧
    (learnFromFeedback prefs job liked "" []).weights.seniority = prefs.weights.seniority ∧
    (learnFromFeedback prefs job liked "" []).weights.remote = prefs.weights.remote ∧
    (learnFromFeedback prefs job liked "" []).weights.recency = prefs.weights.recency ∧
    (liked = true →
      (learnFromFeedback prefs job liked "" []).weights.negativeKeyword =
        prefs.weights.negativeKeyword) ∧
    (liked = false →
      (learnFromFeedback prefs job liked "" []).weights.keywordMatch =
        prefs.weights.keywordMatch) := by
  have hsrc : learnSource job [] = [] := by simp [learnSource, h]
  cases liked <;>
    simp [learnFromFeedback, hsrc, show strIncludes (lowerStr "") "salary" = false by decide,
      show strIncludes (lowerStr "") "pay" = false by decide,
      show strIncludes (lowerStr "") "remote" = false by decide,
      show strIncludes (lowerStr "") "hybrid" = false by decide,
      show strIncludes (lowerStr "") "leadership" = false by decide,
      show strIncludes (lowerStr "") "manager" = false by decide,
      show strIncludes (lowerStr "") "director" = false by decide,
      show strIncludes (lowerStr "") "consult" = false by decide,
      show strIncludes (lowerStr "") "university" = false by decide,
      show strIncludes (lowerStr "") "academic" = false by decide]

theorem lff_frame_minimal_witness :
    cexJob.tags.getD [] = [] ∧
      (learnFromFeedback defaultPreferences cexJob true "" []).keywords =
        defaultPreferences.keywords ∧
      (learnFromFeedback defaultPreferences cexJob true "" []).weights.negativeKeyword =
        defaultPreferences.weights.negativeKeyword :=
  ⟨rfl, (lff_frame_minimal defaultPreferences cexJob true rfl).1,
    (lff_frame_minimal defaultPreferences cexJob true rfl).2.2.2.2.2.2.2.2.2.2.2.2.2.2.2.2.2.2.2.2.1 rfl⟩

/-! ## C6 — tag learning -/

theorem addTagOnce_grows (ks : List String) (t : String) :
    ks <+: addTagOnce ks t := by
  unfold addTagOnce
  split
  · exact List.prefix_refl ks
  · exact ⟨[lowerStr t], rfl⟩

theorem foldAdd_grows (ts : List String) (ks : List String) :
    ks <+: ts.foldl addTagOnce ks := by
  induction ts generalizing ks with
  | nil => exact List.prefix_refl ks
  | cons t ts ih =>
    exact (addTagOnce_grows ks t).trans (ih (addTagOnce ks t))

theorem mem_foldAdd_of_mem {x : String} {ks : List String} (ts : List String)
    (h : x ∈ ks) : x ∈ ts.foldl addTagOnce ks :=
  (foldAdd_grows ts ks).subset h

theorem foldAdd_mem_src {t : String} {ts ks : List String} (h : t ∈ ts) :
    lowerStr t ∈ ts.foldl addTagOnce ks := by
  induction ts generalizing ks with
  | nil => cases h
  | cons u us ih =>
    rcases List.mem_cons.mp h with rfl | h'
    · refine mem_foldAdd_of_mem us ?_
      unfold addTagOnce
      split
      next hc => simpa using hc
      next => exact List.mem_append_right _ (List.mem_singleton.mpr rfl)
    · exact ih h'

theorem foldAdd_sub {x : String} {ts ks : List String}
    (h : x ∈ ts.foldl addTagOnce ks) : x ∈ ks ∨ ∃ t ∈ ts, x = lowerStr t := by
  induction ts generalizing ks with
  | nil => exact Or.inl h
  | cons u us ih =>
    rcases ih h with hmem | ⟨t, ht, rfl⟩
    · unfold addTagOnce at hmem
      split at hmem
      · exact Or.inl hmem
      · rcases List.mem_append.mp hmem with h' | h'
        · exact Or.inl h'
        · exact Or.inr ⟨u, List.mem_cons_self u us, (List.mem_singleton.mp h')⟩
    · exact Or.inr ⟨t, List.mem_cons_of_mem u ht, rfl⟩

theorem foldAdd_nodup {ks : List String} (ts : List String) (h : ks.Nodup) :
    (ts.foldl addTagOnce ks).Nodup := by
  induction ts generalizing ks with
  | nil => exact h
  | cons u us ih =>
    refine ih ?_
    unfold addTagOnce
    split
    · exact h
    next hc =>
      simp only [List.nodup_append, List.nodup_cons, List.nodup_nil]
      refine ⟨h, ⟨by simp, trivial⟩, ?_⟩
      intro a ha hb
      rw [List.mem_singleton.mp hb] at ha
      exact hc (by simpa using ha)

/-- C6: the learner draws from the user-selected tags when non-empty,
otherwise from the posting's own tags; each drawn tag is lower-cased and
appended to the allow-list (like) or the block-list (dislike) unless
already present, and nothing is ever removed from either list. -/
theorem tag_learning (prefs : Preferences) (job : Job) (liked : Bool)
    (notes : String) (selectedTags : List String) :
    (liked = true →
      prefs.keywords <+:
        (learnFromFeedback prefs job liked notes selectedTags).keywords ∧
      (learnFromFeedback prefs job liked notes selectedTags).blockedKeywords =
        prefs.blockedKeywords ∧
      (∀ t ∈ (if selectedTags.isEmpty then job.tags.getD [] else selectedTags),
        lowerStr t ∈ (learnFromFeedback prefs job liked notes selectedTags).keywords) ∧
      (∀ x ∈ (learnFromFeedback prefs job liked notes selectedTags).keywords,
        x ∈ prefs.keywords ∨
          ∃ t ∈ (if selectedTags.isEmpty then job.tags.getD [] else selectedTags),
            x = lowerStr t) ∧
      (prefs.keywords.Nodup →
        (learnFromFeedback prefs job liked notes selectedTags).keywords.Nodup)) ∧
    (liked = false →
      prefs.blockedKeywords <+:
        (learnFromFeedback prefs job liked notes selectedTags).blockedKeywords ∧
      (learnFromFeedback prefs job liked notes selectedTags).keywords =
        prefs.keywords ∧
      (∀ t ∈ (if selectedTags.isEmpty then job.tags.getD [] else selectedTags),
        lowerStr t ∈
          (learnFromFeedback prefs job liked notes selectedTags).blockedKeywords) ∧
      (∀ x ∈ (learnFromFeedback prefs job liked notes selectedTags).blockedKeywords,
        x ∈ prefs.blockedKeywords ∨
          ∃ t ∈ (if selectedTags.isEmpty then job.tags.getD [] else selectedTags),
            x = lowerStr t) ∧
      (prefs.blockedKeywords.Nodup →
        (learnFromFeedback prefs job liked notes selectedTags).blockedKeywords.Nodup)) := by
  have hk := (lff_fields_eq prefs job liked notes selectedTags).1
  have hb := (lff_fields_eq prefs job liked notes selectedTags).2.1
  have hsrc : learnSource job selectedTags =
      (if selectedTags.isEmpty then job.tags.getD [] else selectedTags) := rfl
  constructor
  · rintro rfl
    rw [hk, hb, if_pos rfl, if_pos rfl, ← hsrc]
    exact ⟨foldAdd_grows _ _, rfl, fun t ht => foldAdd_mem_src ht,
      fun x hx => foldAdd_sub hx, fun hn => foldAdd_nodup _ hn⟩
  · rintro rfl
    have hf : ¬((false : Bool) = true) := by simp
    rw [hk, hb, if_neg hf, if_neg hf, ← hsrc]
    exact ⟨foldAdd_grows _ _, rfl, fun t ht => foldAdd_mem_src ht,
      fun x hx => foldAdd_sub hx, fun hn => foldAdd_nodup _ hn⟩

theorem tag_learning_witness :
    (true = true) ∧
      lowerStr "Leadership" ∈
        (learnFromFeedback defaultPreferences cexJob true "n" ["Leadership"]).keywords :=
  ⟨rfl, ((tag_learning defaultPreferences cexJob true "n" ["Leadership"]).1 rfl).2.2.1
    "Leadership" (by decide)⟩

/-! ## C3 — the clamp invariant -/

/-- One feedback submission, as fed to the learner. -/
structure FbEvent where
  job : Job
  liked : Bool
  notes : String
  selectedTags : List String

def applyFeedback (p : Preferences) (e : FbEvent) : Preferences :=
  learnFromFeedback p e.job e.liked e.notes e.selectedTags

/-- A finite sequence of Feedback Learner invocations. -/
def runFeedback (p : Preferences) (events : List FbEvent) : Preferences :=
  events.foldl applyFeedback p

/-- The componentwise clamp ranges of §8's clamp invariant. -/
def weightsInRange (w : Weights) : Prop :=
  0.6 ≤ w.keywordMatch ∧ w.keywordMatch ≤ 2.2 ∧
  -3 ≤ w.negativeKeyword ∧ w.negativeKeyword ≤ -0.6 ∧
  0.2 ≤ w.salary ∧ w.salary ≤ 2.4 ∧
  0 ≤ w.remote ∧ w.remote ≤ 1.4 ∧
  0.2 ≤ w.seniority ∧ w.seniority ≤ 2

theorem lff_preserves_range {p : Preferences} (job : Job) (liked : Bool)
    (notes : String) (selectedTags : List String)
    (h : weightsInRange p.weights) :
    weightsInRange (learnFromFeedback p job liked notes selectedTags).weights := by
  obtain ⟨h1, h2, h3, h4, h5, h6, h7, h8, h9, h10⟩ := h
  rw [lff_weights_eq]
  unfold weightsInRange clamp
  refine ⟨?_, ?_, ?_, ?_, ?_, ?_, ?_, ?_, ?_, ?_⟩ <;> dsimp only <;> split_ifs <;>
    first
      | assumption
      | exact le_max_left _ _
      | exact max_le (by norm_num) (min_le_left _ _)

/-- A profile whose `keywordMatch` weight starts outside the claimed range
(direct user edits can produce such a profile; the sliders go up to 2.5). -/
def outOfRangePrefs : Preferences :=
  { defaultPreferences with
      weights := { defaultPreferences.weights with keywordMatch := 2.5 } }

/-- A dislike with no notes and no tags: it never touches `keywordMatch`. -/
def dislikeEvent : FbEvent := ⟨cexJob, false, "", []⟩

/-- C3 counterexample: starting from a profile whose `keywordMatch` is 2.5,
one Feedback Learner invocation (a dislike) leaves `keywordMatch` at 2.5,
outside `[0.6, 2.2]` — so the bounds do not hold after arbitrary invocation
sequences from *any* starting profile. -/
theorem clamp_invariant_cex :
    ¬ ((runFeedback outOfRangePrefs [dislikeEvent]).weights.keywordMatch ≤ 2.2) := by
  have hkw : (runFeedback outOfRangePrefs [dislikeEvent]).weights.keywordMatch = 2.5 := by
    show (applyFeedback outOfRangePrefs dislikeEvent).weights.keywordMatch = 2.5
    unfold applyFeedback dislikeEvent
    rw [lff_weights_eq]
    rfl
  rw [hkw]
  norm_num

/-- C3 (amended): the clamp ranges are an *invariant*: whenever the starting
profile's five learned weights already lie within `keywordMatch ∈ [0.6,2.2]`,
`negativeKeyword ∈ [−3,−0.6]`, `salary ∈ [0.2,2.4]`, `remote ∈ [0,1.4]`,
`seniority ∈ [0.2,2]`, they still do after any finite sequence of Feedback
Learner invocations — no adjustment ever moves a weight past its clamp
bound, however many consecutive events push the same way. -/
theorem clamp_invariant_preserved (p : Preferences) (events : List FbEvent)
    (h : weightsInRange p.weights) :
    weightsInRange (runFeedback p events).weights := by
  induction events generalizing p with
  | nil => exact h
  | cons e es ih =>
    exact ih (applyFeedback p e)
      (lff_preserves_range e.job e.liked e.notes e.selectedTags h)

theorem clamp_invariant_preserved_witness :
    weightsInRange defaultPreferences.weights ∧
      weightsInRange
        (runFeedback defaultPreferences [dislikeEvent, dislikeEvent]).weights :=
  ⟨by constructor <;> norm_num [defaultPreferences],
    clamp_invariant_preserved defaultPreferences [dislikeEvent, dislikeEvent]
      (by constructor <;> norm_num [defaultPreferences])⟩

/-! ## C4 — the learner never mutates its input profile -/

/-- Heap `h'` extends `h`: every cell that existed in `h` is still there with
the same contents. -/
def heapAgrees (h h' : Heap) : Prop :=
  h.length ≤ h'.length ∧ ∀ i, i < h.length → h'[i]? = h[i]?

theorem heapAgrees_refl (h : Heap) : heapAgrees h h :=
  ⟨le_refl _, fun _ _ => rfl⟩

theorem heapAgrees_alloc {h h' : Heap} (v : HVal) (ha : heapAgrees h h') :
    heapAgrees h (h' ++ [v]) := by
  obtain ⟨hl, hg⟩ := ha
  refine ⟨by simpa using le_trans hl (Nat.le_succ _), fun i hi => ?_⟩
  rw [List.getElem?_append, if_pos (lt_of_lt_of_le hi hl)]
  exact hg i hi

theorem heapAgrees_set {h h' : Heap} {j : Nat} (v : HVal)
    (hj : h.length ≤ j) (ha : heapAgrees h h') : heapAgrees h (h'.set j v) := by
  obtain ⟨hl, hg⟩ := ha
  refine ⟨by simpa using hl, fun i hi => ?_⟩
  rw [List.getElem?_set_ne (by omega)]
  exact hg i hi

/-- The tag loop only allocates; it never writes into an existing cell and
never changes the new object's weights reference. -/
theorem tagFold_agrees (liked : Bool) (ts : List String) (h : Heap) :
    ∀ (hh : Heap) (pp : PrefsObj), heapAgrees h hh →
      heapAgrees h ((ts.foldl (tagStepH liked) (hh, pp)).1) ∧
      ((ts.foldl (tagStepH liked) (hh, pp)).2.weightsRef = pp.weightsRef) := by
  induction ts with
  | nil => exact fun hh pp ha => ⟨ha, rfl⟩
  | cons t ts ih =>
    intro hh pp ha
    have hstep : heapAgrees h (tagStepH liked (hh, pp) t).1 ∧
        (tagStepH liked (hh, pp) t).2.weightsRef = pp.weightsRef := by
      unfold tagStepH heapAlloc
      dsimp only
      split_ifs <;> exact ⟨by first | exact ha | exact heapAgrees_alloc _ ha, rfl⟩
    obtain ⟨ih1, ih2⟩ :=
      ih (tagStepH liked (hh, pp) t).1 (tagStepH liked (hh, pp) t).2 hstep.1
    exact ⟨ih1, ih2.trans hstep.2⟩

/-- C4: a Feedback Learner call leaves every pre-existing heap cell — in
particular the input profile's keyword list, block list, and weight map —
exactly as it was: the new profile is built from fresh cells only.  The
returned object's weight map moreover lives at a fresh reference, distinct
from the input's. -/
theorem lffH_no_mutation (h : Heap) (prefs : PrefsObj) (job : Job)
    (liked : Bool) (notes : String) (selectedTags : List String)
    (hkw : prefs.keywordsRef < h.length)
    (hbk : prefs.blockedKeywordsRef < h.length)
    (hw : prefs.weightsRef < h.length) :
    (∀ i, i < h.length →
      ((learnFromFeedbackH h prefs job liked notes selectedTags).1)[i]? = h[i]?) ∧
    readArr (learnFromFeedbackH h prefs job liked notes selectedTags).1
        prefs.keywordsRef = readArr h prefs.keywordsRef ∧
    readArr (learnFromFeedbackH h prefs job liked notes selectedTags).1
        prefs.blockedKeywordsRef = readArr h prefs.blockedKeywordsRef ∧
    readWmap (learnFromFeedbackH h prefs job liked notes selectedTags).1
        prefs.weightsRef = readWmap h prefs.weightsRef ∧
    (learnFromFeedbackH h prefs job liked notes selectedTags).2.weightsRef ≠
      prefs.weightsRef := by
  have hcond : ∀ (b : Bool) (hh : Heap) (f : Weights → Weights),
      heapAgrees h hh → heapAgrees h (condWrite b hh h.length f) := by
    intro b hh f hhh
    cases b
    · exact hhh
    · exact heapAgrees_set _ (le_refl _) hhh
  have key : heapAgrees h (learnFromFeedbackH h prefs job liked notes selectedTags).1 ∧
      (learnFromFeedbackH h prefs job liked notes selectedTags).2.weightsRef =
        h.length := by
    unfold learnFromFeedbackH heapAlloc
    dsimp only
    have h1 : heapAgrees h (h ++ [HVal.wmap (readWmap h prefs.weightsRef)]) :=
      heapAgrees_alloc _ (heapAgrees_refl h)
    refine ⟨?_, ?_⟩
    · refine hcond _ _ _ ?_
      refine hcond _ _ _ ?_
      refine hcond _ _ _ ?_
      refine (tagFold_agrees liked (learnSource job selectedTags) h _ _ ?_).1
      exact hcond _ _ _ (hcond _ _ _ h1)
    · split_ifs <;>
        exact (tagFold_agrees liked (learnSource job selectedTags) h _ _
          (hcond _ _ _ (hcond _ _ _ h1))).2.trans rfl
  obtain ⟨⟨hlen, hget⟩, hfresh⟩ := key
  refine ⟨hget, ?_, ?_, ?_, ?_⟩
  · unfold readArr
    rw [show ((learnFromFeedbackH h prefs job liked notes selectedTags).1).getD
        prefs.keywordsRef (.arr []) =
        h.getD prefs.keywordsRef (.arr []) by
      simp only [List.getD_eq_getElem?_getD]
      rw [hget _ hkw]]
  · unfold readArr
    rw [show ((learnFromFeedbackH h prefs job liked notes selectedTags).1).getD
        prefs.blockedKeywordsRef (.arr []) =
        h.getD prefs.blockedKeywordsRef (.arr []) by
      simp only [List.getD_eq_getElem?_getD]
      rw [hget _ hbk]]
  · unfold readWmap
    rw [show ((learnFromFeedbackH h prefs job liked notes selectedTags).1).getD
        prefs.weightsRef (.arr []) =
        h.getD prefs.weightsRef (.arr []) by
      simp only [List.getD_eq_getElem?_getD]
      rw [hget _ hw]]
  · rw [hfresh]
    omega

theorem lffH_no_mutation_witness :
    (0 < ([HVal.arr ["k"], HVal.arr ["b"],
        HVal.wmap defaultPreferences.weights] : Heap).length) ∧
      readArr (learnFromFeedbackH
          [HVal.arr ["k"], HVal.arr ["b"], HVal.wmap defaultPreferences.weights]
          ⟨0, 1, 2, true, true⟩ cexJob true "salary" ["Tag"]).1 0 =
        readArr [HVal.arr ["k"], HVal.arr ["b"],
          HVal.wmap defaultPreferences.weights] 0 :=
  ⟨by decide,
    (lffH_no_mutation
      [HVal.arr ["k"], HVal.arr ["b"], HVal.wmap defaultPreferences.weights]
      ⟨0, 1, 2, true, true⟩ cexJob true "salary" ["Tag"]
      (by decide) (by decide) (by decide)).2.1⟩

/-! ## C7 — partial adapter failure -/

/-- Three concrete postings returned by the healthy adapter of the spec's
partial-failure scenario. -/
def scenJobs : List Job :=
  [{ id := "1", title := "a", company := "c", location := "syd", url := "u",
     source := "B" },
   { id := "2", title := "b", company := "c", location := "syd", url := "u",
     source := "B" },
   { id := "3", title := "c", company := "c", location := "syd", url := "u",
     source := "B" }]

/-- An enabled adapter whose fetch rejects. -/
def adapterFail : Adapter := ⟨"A", true, fun _ _ => .error "network down"⟩

/-- An enabled adapter that fulfils with the three scenario postings. -/
def adapterOk : Adapter := ⟨"B", true, fun _ _ => .ok scenJobs⟩

theorem foldl_settle_acc (query location : String) (as : List Adapter) :
    ∀ acc : List Job, as.foldl (settleStep query location) acc =
      acc ++ as.foldl (settleStep query location) [] := by
  induction as with
  | nil => simp
  | cons a as ih =>
    intro acc
    rw [List.foldl_cons, List.foldl_cons, ih (settleStep query location acc a),
      ih (settleStep query location [] a)]
    unfold settleStep
    cases a.fetcher query location <;> simp

/-- C7: aggregation tolerates partial failure.  Removing a rejecting
adapter from the roster does not change the result at all (its batch
contributes nothing and does not disturb the others); in the spec's
scenario — one rejecting adapter plus one fulfilling three postings — the
aggregation returns exactly those three postings, and no error escapes
(`fetchJobs` is a total function into posting lists). -/
theorem fetch_partial_failure (pre post : List Adapter) (bad : Adapter)
    (query location msg : String)
    (hbad : bad.fetcher query location = .error msg) :
    fetchJobs (pre ++ bad :: post) query location =
      fetchJobs (pre ++ post) query location ∧
    fetchJobs [adapterFail, adapterOk] "q" "syd" = scenJobs := by
  constructor
  · unfold fetchJobs
    dsimp only
    rw [List.filter_append, List.filter_append, List.filter_cons]
    split
    · rw [List.foldl_append, List.foldl_append, List.foldl_cons]
      congr 1
      unfold settleStep
      rw [hbad]
    · rfl
  · rfl

theorem fetch_partial_failure_witness :
    adapterFail.fetcher "q" "syd" = .error "network down" ∧
      fetchJobs ([] ++ adapterFail :: [adapterOk]) "q" "syd" =
        fetchJobs ([] ++ [adapterOk]) "q" "syd" :=
  ⟨rfl, (fetch_partial_failure [] [adapterOk] adapterFail "q" "syd"
    "network down" rfl).1⟩

/-! ## C8 — dedup by `(source, identifier)`: last write wins, stable order -/

/-- First-occurrence key dedup: the insertion order a JS `Map` keeps. -/
def keyStep (acc : List String) (k : String) : List String :=
  if acc.contains k then acc else acc ++ [k]

def dedupKeysFirst (ks : List String) : List String := ks.foldl keyStep []

theorem contains_map_jobKey (m : List Job) (k : String) :
    (m.map jobKey).contains k = m.any (fun x => jobKey x = k) := by
  induction m with
  | nil => rfl
  | cons x xs ih =>
    simp only [List.map_cons, List.contains_cons, List.any_cons, ih]
    congr 1
    by_cases hkx : jobKey x = k
    · rw [beq_iff_eq.mpr hkx.symm, decide_eq_true hkx]
    · rw [beq_eq_false_iff_ne.mpr (Ne.symm hkx), decide_eq_false hkx]

theorem mapSet_map_jobKey (m : List Job) (j : Job) :
    (mapSet m j).map jobKey = keyStep (m.map jobKey) (jobKey j) := by
  unfold mapSet keyStep
  rw [contains_map_jobKey]
  split
  · rw [List.map_map, List.map_congr_left]
    intro x _
    by_cases hx : jobKey x = jobKey j <;> simp [hx]
  · simp

theorem dedup_keys_eq (l : List Job) :
    ∀ m : List Job, (l.foldl mapSet m).map jobKey =
      (l.map jobKey).foldl keyStep (m.map jobKey) := by
  induction l with
  | nil => intro m; rfl
  | cons j l ih =>
    intro m
    rw [List.map_cons, List.foldl_cons, List.foldl_cons, ih (mapSet m j),
      mapSet_map_jobKey]

theorem keyStep_nodup {acc : List String} (k : String) (h : acc.Nodup) :
    (keyStep acc k).Nodup := by
  unfold keyStep
  split
  · exact h
  next hc =>
    simp only [List.nodup_append, List.nodup_cons, List.nodup_nil]
    refine ⟨h, ⟨by simp, trivial⟩, ?_⟩
    intro a ha hb
    rw [List.mem_singleton.mp hb] at ha
    exact hc (by simpa using ha)

theorem dedupKeysFirst_nodup (ks : List String) : (dedupKeysFirst ks).Nodup := by
  suffices h : ∀ acc : List String, acc.Nodup → (ks.foldl keyStep acc).Nodup from
    h [] List.nodup_nil
  induction ks with
  | nil => exact fun acc h => h
  | cons k ks ih => exact fun acc h => ih (keyStep acc k) (keyStep_nodup k h)

/-- Replacing the (unique) entry with `j`'s key leaves every other-key
filter unchanged. -/
theorem filter_map_replace_ne (m : List Job) (j : Job) (k : String)
    (hk : jobKey j ≠ k) :
    ((m.map (fun x => if jobKey x = jobKey j then j else x)).filter
        (fun x => jobKey x = k)) = m.filter (fun x => jobKey x = k) := by
  induction m with
  | nil => rfl
  | cons x xs ih =>
    simp only [List.map_cons, List.filter_cons]
    by_cases hx : jobKey x = jobKey j
    · rw [if_pos hx]
      rw [show (decide (jobKey j = k)) = false from decide_eq_false hk,
        show (decide (jobKey x = k)) = false from decide_eq_false (hx ▸ hk)]
      simpa using ih
    · rw [if_neg hx]
      cases h : decide (jobKey x = k) <;> simp only [ih]

theorem filter_of_no_key (m : List Job) (c : String)
    (h : m.any (fun x => jobKey x = c) = false) :
    m.filter (fun x => jobKey x = c) = [] := by
  rw [List.filter_eq_nil_iff]
  intro a ha
  rw [List.any_eq_false] at h
  exact h a ha

/-- With nodup keys and the key present, replace-then-filter yields exactly
the replacement. -/
theorem filter_map_replace_eq (m : List Job) (j : Job)
    (hnd : (m.map jobKey).Nodup)
    (hin : m.any (fun x => jobKey x = jobKey j) = true) :
    ((m.map (fun x => if jobKey x = jobKey j then j else x)).filter
        (fun x => jobKey x = jobKey j)) = [j] := by
  induction m with
  | nil => simp at hin
  | cons x xs ih =>
    simp only [List.map_cons, List.nodup_cons] at hnd
    obtain ⟨hx_not, hnd'⟩ := hnd
    simp only [List.map_cons, List.filter_cons]
    by_cases hx : jobKey x = jobKey j
    · rw [if_pos hx]
      rw [show (decide (jobKey j = jobKey j)) = true by simp]
      have hxs : (xs.map (fun x => if jobKey x = jobKey j then j else x)).filter
          (fun x => jobKey x = jobKey j) = [] := by
        rw [List.filter_eq_nil_iff]
        intro a ha
        simp only [List.mem_map] at ha
        obtain ⟨y, hy, rfl⟩ := ha
        by_cases hyk : jobKey y = jobKey j
        · exact absurd (hx ▸ hyk ▸ (List.mem_map_of_mem jobKey hy)) hx_not
        · simpa [if_neg hyk] using hyk
      rw [hxs]
      simp
    · rw [if_neg hx]
      rw [show (decide (jobKey x = jobKey j)) = false from decide_eq_false hx]
      simp only [Bool.false_eq_true, if_false]
      refine ih hnd' ?_
      simp only [List.any_cons, Bool.or_eq_true] at hin
      rcases hin with h' | h'
      · exact absurd (of_decide_eq_true h') hx
      · exact h'

/-- Last-write-wins filter characterization of one `map.set`. -/
theorem filter_mapSet (m : List Job) (j : Job) (k : String)
    (hnd : (m.map jobKey).Nodup) :
    (mapSet m j).filter (fun x => jobKey x = k) =
      if jobKey j = k
      then [j]
      else m.filter (fun x => jobKey x = k) := by
  unfold mapSet
  split_ifs with hin hk hk
  · rw [← hk]
    exact filter_map_replace_eq m j hnd hin
  · exact filter_map_replace_ne m j k hk
  · rw [List.filter_append, ← hk,
      filter_of_no_key m (jobKey j) (by simpa using hin)]
    simp
  · rw [List.filter_append]
    simp [hk]

/-- C8: `fetchJobs`' dedup keeps, per `(source, identifier)` key, exactly
one posting — the **last** one pushed with that key — and lists the keys in
first-occurrence (JS `Map` insertion) order. -/
theorem dedup_last_write_wins (l : List Job) (k : String) :
    (dedupByKey l).map jobKey = dedupKeysFirst (l.map jobKey) ∧
    (dedupByKey l).filter (fun x => jobKey x = k) =
      ((l.filter (fun x => jobKey x = k)).getLast?).toList ∧
    (k ∈ l.map jobKey →
      (dedupByKey l).countP (fun x => jobKey x = k) = 1) := by
  have hkeys : ∀ l' : List Job,
      (dedupByKey l').map jobKey = dedupKeysFirst (l'.map jobKey) := by
    intro l'
    unfold dedupByKey dedupKeysFirst
    exact dedup_keys_eq l' []
  have hfilter : ∀ l' : List Job,
      (dedupByKey l').filter (fun x => jobKey x = k) =
        ((l'.filter (fun x => jobKey x = k)).getLast?).toList := by
    intro l'
    induction l' using List.reverseRecOn with
    | nil => rfl
    | append_singleton l' j ih =>
      have hstep : dedupByKey (l' ++ [j]) = mapSet (dedupByKey l') j := by
        unfold dedupByKey
        rw [List.foldl_append]
        rfl
      have hnd : ((dedupByKey l').map jobKey).Nodup := by
        rw [hkeys l']
        exact dedupKeysFirst_nodup _
      rw [hstep, filter_mapSet _ _ _ hnd, List.filter_append]
      by_cases hk : jobKey j = k
      · rw [if_pos hk]
        rw [show List.filter (fun x => jobKey x = k) [j] = [j] by simp [hk]]
        rw [List.getLast?_concat]
        rfl
      · rw [if_neg hk]
        rw [show List.filter (fun x => jobKey x = k) [j] = [] by simp [hk]]
        rw [List.append_nil]
        exact ih
  refine ⟨hkeys l, hfilter l, fun hmem => ?_⟩
  rw [List.countP_eq_length_filter, hfilter l]
  have hne : l.filter (fun x => jobKey x = k) ≠ [] := by
    rw [Ne, List.filter_eq_nil_iff]
    intro hall
    obtain ⟨x, hx, rfl⟩ := List.mem_map.mp hmem
    exact hall x hx (by simp)
  obtain ⟨a, ha⟩ := List.getLast?_isSome.mpr hne |> Option.isSome_iff_exists.mp
  rw [ha]
  rfl

theorem dedup_last_write_wins_witness :
    ("B-1" ∈ (scenJobs ++ scenJobs).map jobKey) ∧
      ((dedupByKey (scenJobs ++ scenJobs)).countP (fun x => jobKey x = "B-1") = 1) :=
  ⟨by decide,
    (dedup_last_write_wins (scenJobs ++ scenJobs) "B-1").2.2 (by decide)⟩

/-! ## C2 — ranking order and stability -/

theorem insertDesc_perm (x : Scored) (l : List Scored) :
    (insertDesc x l).Perm (x :: l) := by
  induction l with
  | nil => exact List.Perm.refl _
  | cons y ys ih =>
    unfold insertDesc
    split
    · exact List.Perm.refl _
    · exact (ih.cons y).trans (List.Perm.swap x y ys)

theorem sortDesc_perm (l : List Scored) : (sortDesc l).Perm l := by
  induction l with
  | nil => exact List.Perm.refl _
  | cons x xs ih => exact (insertDesc_perm x (sortDesc xs)).trans (ih.cons x)

theorem insertDesc_pairwise (x : Scored) {l : List Scored}
    (h : l.Pairwise (fun a b => b.score ≤ a.score)) :
    (insertDesc x l).Pairwise (fun a b => b.score ≤ a.score) := by
  induction l with
  | nil => exact List.pairwise_singleton _ x
  | cons y ys ih =>
    rw [List.pairwise_cons] at h
    obtain ⟨hy, hys⟩ := h
    unfold insertDesc
    split
    next hle =>
      rw [List.pairwise_cons]
      refine ⟨?_, List.pairwise_cons.mpr ⟨hy, hys⟩⟩
      intro z hz
      rcases List.mem_cons.mp hz with rfl | hz'
      · exact hle
      · exact le_trans (hy z hz') hle
    next hgt =>
      rw [List.pairwise_cons]
      refine ⟨?_, ih hys⟩
      intro z hz
      rcases List.mem_cons.mp ((insertDesc_perm x ys).mem_iff.mp hz) with rfl | hz'
      · exact le_of_lt (lt_of_not_le hgt)
      · exact hy z hz'

theorem sortDesc_pairwise (l : List Scored) :
    (sortDesc l).Pairwise (fun a b => b.score ≤ a.score) := by
  induction l with
  | nil => exact List.Pairwise.nil
  | cons x xs ih => exact insertDesc_pairwise x ih

theorem insertDesc_filter (x : Scored) (l : List Scored) (s : ℚ) :
    (insertDesc x l).filter (fun y => y.score = s) =
      if x.score = s
      then x :: l.filter (fun y => y.score = s)
      else l.filter (fun y => y.score = s) := by
  induction l with
  | nil =>
    by_cases hx : x.score = s <;>
      simp [insertDesc, List.filter_cons, hx]
  | cons y ys ih =>
    unfold insertDesc
    split
    next hle =>
      by_cases hx : x.score = s <;> simp [List.filter_cons, hx]
    next hgt =>
      have hylt : x.score < y.score := lt_of_not_le hgt
      rw [List.filter_cons, List.filter_cons, ih]
      by_cases hx : x.score = s
      · have hy : ¬(y.score = s) := by
          intro hy
          rw [hx] at hylt
          exact absurd hy (ne_of_gt hylt)
        simp [hx, hy]
      · by_cases hy : y.score = s <;> simp [hx, hy]

theorem sortDesc_filter (l : List Scored) (s : ℚ) :
    (sortDesc l).filter (fun y => y.score = s) =
      l.filter (fun y => y.score = s) := by
  induction l with
  | nil => rfl
  | cons x xs ih =>
    show (insertDesc x (sortDesc xs)).filter _ = _
    rw [insertDesc_filter, List.filter_cons, ih]
    by_cases hx : x.score = s <;> simp [hx]

/-- C2: the Ranker returns the (tag-enriched) postings ordered by
non-increasing score, as a permutation of the enriched input, and the sort
is stable: for each score value, the equal-score postings appear in the
output in exactly their input order. -/
theorem rerank_sorted_stable (now : Int) (jobs : List Job) (prefs : Preferences) :
    (reRank now jobs prefs).Pairwise
      (fun a b => scoreJob now b prefs ≤ scoreJob now a prefs) ∧
    (reRank now jobs prefs).Perm (enrichJobs jobs) ∧
    ∀ s : ℚ, (reRank now jobs prefs).filter (fun j => scoreJob now j prefs = s) =
      (enrichJobs jobs).filter (fun j => scoreJob now j prefs = s) := by
  have hmapid : ∀ e : List Job,
      (e.map (fun j => Scored.mk j (scoreJob now j prefs))).map Scored.job = e := by
    intro e
    rw [List.map_map]
    exact List.map_id e
  have hinv : ∀ x ∈ sortDesc ((enrichJobs jobs).map
      (fun j => Scored.mk j (scoreJob now j prefs))),
      x.score = scoreJob now x.job prefs := by
    intro x hx
    have : x ∈ (enrichJobs jobs).map (fun j => Scored.mk j (scoreJob now j prefs)) :=
      (sortDesc_perm _).mem_iff.mp hx
    obtain ⟨j, _, rfl⟩ := List.mem_map.mp this
    rfl
  refine ⟨?_, ?_, ?_⟩
  · show (List.map Scored.job _).Pairwise _
    rw [List.pairwise_map]
    refine (sortDesc_pairwise _).imp_of_mem ?_
    intro a b ha hb hab
    rw [← hinv a ha, ← hinv b hb]
    exact hab
  · show (List.map Scored.job _).Perm _
    have := ((sortDesc_perm ((enrichJobs jobs).map
      (fun j => Scored.mk j (scoreJob now j prefs))))).map Scored.job
    rw [hmapid] at this
    exact this
  · intro s
    show (List.map Scored.job _).filter _ = _
    rw [List.filter_map]
    rw [List.filter_congr (q := fun y => y.score = s) ?hq]
    case hq =>
      intro x hx
      simp only [Function.comp_apply]
      rw [hinv x hx]
    rw [sortDesc_filter]
    rw [List.filter_congr (p := fun y => y.score = s)
      (q := (fun j => decide (scoreJob now j prefs = s)) ∘ Scored.job) ?hq2]
    case hq2 =>
      intro x hx
      obtain ⟨j, _, rfl⟩ := List.mem_map.mp hx
      simp only [Function.comp_apply]
    rw [← List.filter_map, hmapid]

end Pathfinder
